import Mathlib

/-
Verification of the swimmer-tracker client core (src/App.tsx) and the
personal_bests SQL view (supabase/schema.sql), as a shallow embedding.

JavaScript numbers are modelled as `Option ℚ` (`none` = NaN); `undefined`
values of optional fields as an outer `Option`; dates are ISO `YYYY-MM-DD`
strings, whose lexicographic order agrees with calendar order.
-/

namespace SwimmerTracker

/-- JavaScript number: `none` models `NaN`, `some q` a finite numeric value. -/
abbrev JsNum := Option ℚ

/-- Model of the JavaScript expression `Number(v) || d` for `v` already a
number: `NaN` and `0` are falsy and fall through to the default `d`. -/
def jsOrNum (v : JsNum) (d : ℚ) : ℚ :=
  match v with
  | none => d
  | some x => if x = 0 then d else x

/-- ASCII lower-casing, modelling JavaScript `String.prototype.toLowerCase`
on the ASCII strings this application handles. -/
def strLower (s : String) : String :=
  String.mk (s.toList.map Char.toLower)

/-- Model of JavaScript `String.prototype.trim`: strip leading and trailing
whitespace. -/
def jsTrim (s : String) : String :=
  String.mk
    (((s.toList.dropWhile Char.isWhitespace).reverse.dropWhile Char.isWhitespace).reverse)

/-- Split a character list on a separator character, keeping empty pieces —
the behaviour of JavaScript `split` with a one-character separator. -/
def splitOnChar (sep : Char) : List Char → List (List Char)
  | [] => [[]]
  | c :: rest =>
    let r := splitOnChar sep rest
    if c = sep then [] :: r
    else
      match r with
      | [] => [[c]]
      | h :: t => (c :: h) :: t

/-- Model of JavaScript `s.split(sep)` for a one-character separator. -/
def jsSplit (s : String) (sep : Char) : List String :=
  (splitOnChar sep s.toList).map String.mk

/-- Strict lexicographic order on character lists, modelling JavaScript's
and Postgres's ordering of the ISO date strings this application stores. -/
def lexLtB : List Char → List Char → Bool
  | [], [] => false
  | [], _ :: _ => true
  | _ :: _, [] => false
  | a :: as, b :: bs => if a = b then lexLtB as bs else decide (a < b)

/-- Strict string order (on the underlying character lists). -/
def strLt (a b : String) : Bool :=
  lexLtB a.toList b.toList

/-- Non-strict string order: `a ≤ b` iff not `b < a`. -/
def strLe (a b : String) : Prop :=
  strLt b a = false

/-- Boolean test that `pat` is an initial segment of `l`. -/
def startsWithL : List Char → List Char → Bool
  | [], _ => true
  | _ :: _, [] => false
  | a :: as, b :: bs => a == b && startsWithL as bs

/-- Boolean test that `pat` occurs contiguously inside `l`. -/
def hasSub (pat : List Char) : List Char → Bool
  | [] => pat.isEmpty
  | b :: bs => startsWithL pat (b :: bs) || hasSub pat bs

/-- Model of JavaScript `hay.includes(needle)`: substring containment. -/
def jsIncludes (hay needle : String) : Bool :=
  hasSub needle.toList hay.toList

/-- Model of JavaScript `String(n)` on a number. Integral values render as
their decimal digits exactly as in JS; `NaN` renders as `"NaN"`; other
rationals use Lean's rational rendering (a stand-in: the app only ever
stores numbers whose string form the claims never inspect further). -/
def jsNumToString (v : JsNum) : String :=
  match v with
  | none => "NaN"
  | some q => if q.den = 1 then toString q.num else toString q

-- ---------- Client record types (App.tsx) ----------

/-- The `Workout` record type of App.tsx (training session). `stroke` is a
string drawn from Free/Back/Breast/Fly/IM/Drill. -/
structure Workout where
  id : Option String
  user_id : Option String
  date : String
  distance_m : JsNum
  duration_min : JsNum
  stroke : String
  rpe : Option JsNum
  notes : Option String
deriving Repr, DecidableEq

/-- The `Competition` record type of App.tsx (competition result). -/
structure Competition where
  id : Option String
  user_id : Option String
  date : String
  meet : String
  distance_m : JsNum
  stroke : String
  time_sec : JsNum
  location : Option String
  notes : Option String
deriving Repr, DecidableEq

-- ---------- Validation / normalization (saveWorkout, saveCompetition) ----------

/-- The `clean` object built at the top of `saveWorkout` (App.tsx:313-319):
`distance_m: Math.max(0, Number(draft.distance_m) || 0)`,
`duration_min: Math.max(0, Number(draft.duration_min) || 0)`,
`rpe: draft.rpe ? Math.min(10, Math.max(1, Number(draft.rpe))) : undefined`. -/
def workoutClean (draft : Workout) : Workout :=
  { draft with
    distance_m := some (max 0 (jsOrNum draft.distance_m 0))
    duration_min := some (max 0 (jsOrNum draft.duration_min 0))
    rpe :=
      match draft.rpe with
      | some (some v) => if v = 0 then none else some (some (min 10 (max 1 v)))
      | _ => none }

/-- The `clean` object built at the top of `saveCompetition` (App.tsx:373-377):
`distance_m: Math.max(25, Number(cdraft.distance_m) || 50)`,
`time_sec: Math.max(1, Number(cdraft.time_sec) || 40)`. -/
def competitionClean (cdraft : Competition) : Competition :=
  { cdraft with
    distance_m := some (max 25 (jsOrNum cdraft.distance_m 50))
    time_sec := some (max 1 (jsOrNum cdraft.time_sec 40)) }

-- ---------- Optimistic CRUD handlers (App.tsx) ----------

/-- A remote request issued by the workout save handler. -/
inductive WReq where
  | update (id : String) (payload : Workout)
  | insert (payload : Workout)
deriving Repr, DecidableEq

/-- Outcome of running `saveWorkout`: the in-memory rows right after the
optimistic apply, the rows after the remote response was reconciled, the
remote request issued (if any), and the alerts shown. -/
structure WOut where
  rowsOpt : List Workout
  rows : List Workout
  req : Option WReq
  alerts : List String
deriving Repr, DecidableEq

/-- Model of `saveWorkout` (App.tsx:311-349). `session` is the signed-in
user id (if any), `editingId` distinguishes the update path from the create
path, `tempId` is the `crypto.randomUUID()` value, `remoteErr` the error of
the one supabase call (none = success), and `confirmed` the server row
returned by a successful insert. -/
def saveWorkout (session : Option String) (editingId : Option String)
    (draft : Workout) (tempId : String) (remoteErr : Option String)
    (confirmed : Workout) (rows : List Workout) : WOut :=
  let clean := workoutClean draft
  match session with
  | none => ⟨rows, rows, none, ["Please sign in first."]⟩
  | some uid =>
    match editingId with
    | some eid =>
      let prev := rows.find? (fun x => x.id = some eid)
      let updated := { clean with id := some eid }
      let r1 := rows.map (fun x => if x.id = some eid then updated else x)
      match remoteErr with
      | none => ⟨r1, r1, some (.update eid updated), []⟩
      | some m =>
        let r2 :=
          match prev with
          | some p => r1.map (fun x => if x.id = some eid then p else x)
          | none => r1
        ⟨r1, r2, some (.update eid updated), [m]⟩
    | none =>
      let optimistic := { clean with id := some tempId }
      let r1 := optimistic :: rows
      let payload := { clean with user_id := some uid }
      match remoteErr with
      | none =>
        ⟨r1, r1.map (fun x => if x.id = some tempId then confirmed else x),
          some (.insert payload), []⟩
      | some m =>
        ⟨r1, r1.filter (fun x => ¬(x.id = some tempId)), some (.insert payload), [m]⟩

/-- Outcome of running `deleteWorkout`: optimistic rows, reconciled rows,
the id submitted for remote deletion (if any), and alerts. -/
structure DOut where
  rowsOpt : List Workout
  rows : List Workout
  req : Option String
  alerts : List String
deriving Repr, DecidableEq

/-- Model of `deleteWorkout` (App.tsx:359-368). The handler gates on the
`confirm` dialog only; it never reads `session` (the closure has it in
scope but performs no sign-in check). -/
def deleteWorkout (session : Option String) (confirmOk : Bool) (id : String)
    (remoteErr : Option String) (rows : List Workout) : DOut :=
  if confirmOk then
    let prev := rows
    let r1 := rows.filter (fun x => ¬(x.id = some id))
    match remoteErr with
    | none => ⟨r1, r1, some id, []⟩
    | some m => ⟨r1, prev, some id, [m]⟩
  else ⟨rows, rows, none, []⟩

/-- A remote request issued by the competition save handler. -/
inductive CReq where
  | update (id : String) (payload : Competition)
  | insert (payload : Competition)
deriving Repr, DecidableEq

/-- Outcome of running `saveCompetition`; `pbRefresh` records whether the
deferred `refreshPBs` call was scheduled. -/
structure COut where
  rowsOpt : List Competition
  rows : List Competition
  req : Option CReq
  alerts : List String
  pbRefresh : Bool
deriving Repr, DecidableEq

/-- Model of `saveCompetition` (App.tsx:371-408), structured exactly like
`saveWorkout`; the signed-out early return skips the PB refresh timer. -/
def saveCompetition (session : Option String) (ceditingId : Option String)
    (cdraft : Competition) (tempId : String) (remoteErr : Option String)
    (confirmed : Competition) (comps : List Competition) : COut :=
  let clean := competitionClean cdraft
  match session with
  | none => ⟨comps, comps, none, ["Please sign in first."], false⟩
  | some uid =>
    match ceditingId with
    | some eid =>
      let prev := comps.find? (fun x => x.id = some eid)
      let updated := { clean with id := some eid }
      let r1 := comps.map (fun x => if x.id = some eid then updated else x)
      match remoteErr with
      | none => ⟨r1, r1, some (.update eid updated), [], true⟩
      | some m =>
        let r2 :=
          match prev with
          | some p => r1.map (fun x => if x.id = some eid then p else x)
          | none => r1
        ⟨r1, r2, some (.update eid updated), [m], true⟩
    | none =>
      let optimistic := { clean with id := some tempId }
      let r1 := optimistic :: comps
      let payload := { clean with user_id := some uid }
      match remoteErr with
      | none =>
        ⟨r1, r1.map (fun x => if x.id = some tempId then confirmed else x),
          some (.insert payload), [], true⟩
      | some m =>
        ⟨r1, r1.filter (fun x => ¬(x.id = some tempId)), some (.insert payload),
          [m], true⟩

/-- Outcome of running `deleteCompetition`. -/
structure CDOut where
  rowsOpt : List Competition
  rows : List Competition
  req : Option String
  alerts : List String
  pbRefresh : Bool
deriving Repr, DecidableEq

/-- Model of `deleteCompetition` (App.tsx:418-428); like `deleteWorkout` it
performs no sign-in check, and schedules the PB refresh whenever the
confirm gate passes (even after a remote error). -/
def deleteCompetition (session : Option String) (confirmOk : Bool) (id : String)
    (remoteErr : Option String) (comps : List Competition) : CDOut :=
  if confirmOk then
    let prev := comps
    let r1 := comps.filter (fun x => ¬(x.id = some id))
    match remoteErr with
    | none => ⟨r1, r1, some id, [], true⟩
    | some m => ⟨r1, prev, some id, [m], true⟩
  else ⟨comps, comps, none, [], false⟩

-- ---------- Personal bests (schema.sql view + refreshPBs) ----------

/-- A row of the `competitions` table as stored by the remote store
(schema.sql:21-32): all columns non-null, `distance_m` an integer,
`time_sec` a numeric, the `date` column as an ISO string. The
`personal_bests` view projects exactly these six columns. -/
structure CompRow where
  user_id : String
  date : String
  meet : String
  distance_m : Int
  stroke : String
  time_sec : ℚ
deriving Repr, DecidableEq

/-- The `distinct on` key of the `personal_bests` view:
`(user_id, stroke, distance_m)`. -/
def pbKey (c : CompRow) : String × String × Int :=
  (c.user_id, c.stroke, c.distance_m)

/-- Strict precedence used by the view's `order by ... time_sec asc, date asc`
within one key group: `b` comes strictly before `a`. -/
def pbBefore (b a : CompRow) : Bool :=
  decide (b.time_sec < a.time_sec) ||
    (decide (b.time_sec = a.time_sec) && strLt b.date a.date)

/-- First row per group under the view's ordering: fold keeping the earlier
row, preferring the incumbent on full ties. -/
def pbPick (c : CompRow) (l : List CompRow) : CompRow :=
  l.foldl (fun acc x => if pbBefore x acc then x else acc) c

/-- Model of the `personal_bests` view (schema.sql:35-39):
`select distinct on (user_id, stroke, distance_m) ... order by user_id,
stroke, distance_m, time_sec asc, date asc` — for each key present in
`competitions`, the row minimal under (time_sec, date). -/
def personal_bests (comps : List CompRow) : List CompRow :=
  ((comps.map pbKey).dedup).filterMap (fun k =>
    match comps.filter (fun c => pbKey c = k) with
    | [] => none
    | c :: rest => some (pbPick c rest))

/-- Non-strict (time_sec, date) lexicographic order, for stating what the
view's pick minimizes. -/
def pbLe (a b : CompRow) : Prop :=
  a.time_sec < b.time_sec ∨ (a.time_sec = b.time_sec ∧ strLe a.date b.date)

/-- Model of `refreshPBs` (App.tsx:429-432): `if (!error) setPBs(data ?? [])`
— the stored list is replaced only when the fetch succeeds. -/
def refreshPBs (err : Option String) (data : Option (List CompRow))
    (pbs : List CompRow) : List CompRow :=
  match err with
  | some _ => pbs
  | none => data.getD []

-- ---------- fetchAll ordering (App.tsx:240-259) ----------

/-- Date-descending order on workouts (ISO date strings compare
lexicographically like calendar dates): `a` may precede `b` when `a`'s date
is not strictly older. -/
def dateDesc (a b : Workout) : Prop :=
  strLe b.date a.date

instance : DecidableRel dateDesc := fun a b => by
  unfold dateDesc strLe
  infer_instance

/-- Insert a workout into a date-descending list, keeping it descending. -/
def insertDesc (w : Workout) : List Workout → List Workout
  | [] => [w]
  | a :: t => if strLt w.date a.date then a :: insertDesc w t else w :: a :: t

/-- Sort a workout list by date descending (the remote store's query
engine, external to the core, modelled as an insertion sort). -/
def sortByDateDesc (l : List Workout) : List Workout :=
  l.foldr insertDesc []

/-- Model of the workouts fetch in `fetchAll` (App.tsx:244):
`supabase.from("workouts").select("*").order("date", ascending: false)
.limit(500)` — the remote store returns its table sorted by date
descending, truncated to 500 rows. -/
def fetchWorkouts (table : List Workout) : List Workout :=
  (sortByDateDesc table).take 500

-- ---------- Search / filter / pagination (App.tsx:293-308) ----------

/-- The filter predicate of the `filtered` memo, applied to the trimmed,
lower-cased query `q`: `r.date.includes(q) || String(r.distance_m).includes(q)
|| String(r.duration_min).includes(q) || (r.stroke || "").toLowerCase()
.includes(q) || (r.notes || "").toLowerCase().includes(q)`. Only stroke and
notes are lower-cased before matching. -/
def matchesQuery (q : String) (r : Workout) : Bool :=
  jsIncludes r.date q ||
  jsIncludes (jsNumToString r.distance_m) q ||
  jsIncludes (jsNumToString r.duration_min) q ||
  jsIncludes (strLower r.stroke) q ||
  jsIncludes (strLower (r.notes.getD "")) q

/-- The filtered-but-not-yet-paginated list: `const q = query.trim()
.toLowerCase(); const base = !q ? rows : rows.filter(...)`. -/
def matchedRows (rows : List Workout) (query : String) : List Workout :=
  let q := strLower (jsTrim query)
  if q = "" then rows else rows.filter (matchesQuery q)

/-- Model of the `filtered` memo (App.tsx:293-308): filter then the slice
`[page*50, page*50+50)`. -/
def filtered (rows : List Workout) (query : String) (page : ℕ) : List Workout :=
  ((matchedRows rows query).drop (page * 50)).take 50

/-- Modelled from the words of claim C6 (not from the source): records whose
date, distance, duration, stroke or notes field case-insensitively contains
the query as a substring, in original order, sliced to
`[page*50, page*50+50)`; an empty query applies no filtering. For comparison
with `filtered`. -/
def viewClaimC6 (rows : List Workout) (query : String) (page : ℕ) : List Workout :=
  let ci := fun (hay : String) => jsIncludes (strLower hay) (strLower query)
  let base :=
    if query = "" then rows
    else rows.filter (fun r =>
      ci r.date || ci (jsNumToString r.distance_m) ||
      ci (jsNumToString r.duration_min) || ci r.stroke || ci (r.notes.getD ""))
  (base.drop (page * 50)).take 50

-- ---------- Normalization tables (amended claim C4) ----------

/-- Modelled from the amended validation table (claim C4): Session
distanceMeters and durationMinutes clamp to ≥ 0 with default 0 if
non-numeric; perceivedEffort clamps into [1,10] when present, numeric and
nonzero, and is otherwise omitted. For comparison with `workoutClean`. -/
def sessionNormTable (draft : Workout) : Workout :=
  { draft with
    distance_m := some (match draft.distance_m with
      | none => 0
      | some v => max 0 v)
    duration_min := some (match draft.duration_min with
      | none => 0
      | some v => max 0 v)
    rpe :=
      match draft.rpe with
      | some (some v) => if v = 0 then none else some (some (min 10 (max 1 v)))
      | _ => none }

/-- Modelled from the amended validation table (claim C4): Result
distanceMeters defaults to 50 when non-numeric or zero and otherwise clamps
to ≥ 25; timeSeconds defaults to 40 when non-numeric or zero and otherwise
clamps to ≥ 1. For comparison with `competitionClean`. -/
def resultNormTable (cdraft : Competition) : Competition :=
  { cdraft with
    distance_m := some (match cdraft.distance_m with
      | none => 50
      | some v => if v = 0 then 50 else max 25 v)
    time_sec := some (match cdraft.time_sec with
      | none => 40
      | some v => if v = 0 then 40 else max 1 v) }

-- ---------- CSV parsing (App.tsx:141-158) ----------

/-- Drop one trailing carriage return, modelling the `\r?` part of the
line-splitting regex `/\r?\n/`. -/
def stripCR (s : String) : String :=
  if s.toList.getLast? = some '\r' then String.mk s.toList.dropLast else s

/-- Apply `f` to every element except the last (pieces before a `"\n"`
separator had the separator following them; the final piece did not). -/
def mapAllButLast (f : String → String) : List String → List String
  | [] => []
  | [a] => [a]
  | a :: b :: rest => f a :: mapAllButLast f (b :: rest)

/-- Model of `text.split(/\r?\n/).filter(Boolean)`. -/
def jsLines (text : String) : List String :=
  (mapAllButLast stripCR (jsSplit text '\n')).filter (fun s => ¬(s = ""))

/-- Model of `cols[idx(name)]`: `undefined` (`none`) when the header does
not contain `name` (index -1) or the row has too few columns. -/
def cellAt (header cols : List String) (name : String) : Option String :=
  match header.findIdx? (fun h => h = name) with
  | none => none
  | some i => cols.get? i

/-- JavaScript truthiness filter on an optional string: `undefined` and
`""` are falsy. -/
def truthyStr : Option String → Option String
  | some s => if s = "" then none else some s
  | none => none

/-- Model of `a || d` for an optional string `a` and string default `d`. -/
def jsTruthyD (a : Option String) (d : String) : String :=
  (truthyStr a).getD d

/-- Model of `a || b || 0` on two optional string cells: the first truthy
string, with `none` standing for the final numeric fallback `0`. -/
def jsOrCell (a b : Option String) : Option String :=
  match truthyStr a with
  | some s => some s
  | none => truthyStr b

/-- A raw row produced by `parseCSV` (App.tsx:149-156). `distance_m` and
`duration_min` hold `string | 0` (`none` = the `|| 0` fallback); `rpe`
holds `string | null` (`none` = `null`). -/
structure RawRow where
  date : Option String
  distance_m : Option String
  duration_min : Option String
  stroke : String
  rpe : Option String
  notes : String
deriving Repr, DecidableEq

/-- One row object of the `parseCSV` loop body. -/
def mkRawRow (header cols : List String) : RawRow :=
  { date := (cellAt header cols "date").map jsTrim
    distance_m := jsOrCell (cellAt header cols "distance_m") (cellAt header cols "distance")
    duration_min := jsOrCell (cellAt header cols "duration_min") (cellAt header cols "duration")
    stroke := jsTruthyD ((cellAt header cols "stroke").map jsTrim) "Free"
    rpe := truthyStr (cellAt header cols "rpe")
    notes := jsTruthyD ((cellAt header cols "notes").map jsTrim) "" }

/-- Model of `parseCSV` (App.tsx:141-158): split into non-empty lines, read
the first as the (trimmed, lower-cased) header, build one raw row per
remaining line. -/
def parseCSV (text : String) : List RawRow :=
  match jsLines text with
  | [] => []
  | h :: rest =>
    let header := (jsSplit h ',').map (fun s => strLower (jsTrim s))
    rest.map (fun line => mkRawRow header (jsSplit line ','))

-- ---------- JavaScript Number() on strings ----------

/-- Split a character list at the first `'.'`; `none` when there is no dot. -/
def splitDot : List Char → List Char × Option (List Char)
  | [] => ([], none)
  | '.' :: rest => ([], some rest)
  | c :: rest =>
    let r := splitDot rest
    (c :: r.1, r.2)

/-- Decimal value of a digit list. -/
def digitsVal (cs : List Char) : ℕ :=
  cs.foldl (fun a c => a * 10 + (c.toNat - 48)) 0

/-- Model of JavaScript `Number(s)` on the strings found in CSV cells:
trims whitespace, `""` is 0, an optional sign followed by decimal digits
with an optional fractional part parses to its value, anything else is NaN.
(Exponent and hex forms, which no swim CSV uses, are modelled as NaN.) -/
def jsNumber (s : String) : JsNum :=
  let t := jsTrim s
  if t = "" then some 0
  else
    let (neg, body) :=
      match t.toList with
      | '-' :: rest => (true, rest)
      | '+' :: rest => (false, rest)
      | cs => (false, cs)
    let (ip, fpOpt) := splitDot body
    let fp := fpOpt.getD []
    if ip.all Char.isDigit && fp.all Char.isDigit && (!ip.isEmpty || !fp.isEmpty) then
      let q : ℚ :=
        if fp.isEmpty then (digitsVal ip : ℚ)
        else (digitsVal ip : ℚ) + (digitsVal fp : ℚ) / (10 : ℚ) ^ fp.length
      some (if neg then -q else q)
    else none

-- ---------- Bulk import pipeline (App.tsx:877-897) ----------

/-- A cleaned workout insert payload built by the import handler. -/
structure CleanedRow where
  date : String
  distance_m : ℚ
  duration_min : ℚ
  stroke : String
  rpe : Option JsNum
  notes : String
  user_id : String
deriving Repr, DecidableEq

/-- Model of `Number(c)` on a `string | 0` cell. -/
def numOfCell (c : Option String) : JsNum :=
  match c with
  | none => some 0
  | some s => jsNumber s

/-- The per-row cleaning of the import handler (App.tsx:880-888): clamp the
numeric fields like the Session create path, default unknown strokes to
"Free", and stamp the signed-in owner. `today` is the dynamic
`new Date().toISOString().slice(0, 10)` default for a missing date. -/
def cleanImportRow (uid today : String) (r : RawRow) : CleanedRow :=
  { date := r.date.getD today
    distance_m := max 0 (jsOrNum (numOfCell r.distance_m) 0)
    duration_min := max 0 (jsOrNum (numOfCell r.duration_min) 0)
    stroke :=
      if r.stroke ∈ ["Free", "Back", "Breast", "Fly", "IM", "Drill"]
      then r.stroke else "Free"
    rpe :=
      match r.rpe with
      | some s => if s = "" then none else some ((jsNumber s).map (fun v => min 10 (max 1 v)))
      | none => none
    notes := r.notes
    user_id := uid }

/-- Consecutive slices of 500 (fuelled recursion: each step consumes at
least one element, so `fuel = l.length` always suffices). -/
def chunksGo {α : Type} : ℕ → List α → List (List α)
  | _, [] => []
  | 0, _ :: _ => []
  | fuel + 1, a :: l => ((a :: l).take 500) :: chunksGo fuel ((a :: l).drop 500)

/-- Consecutive slices of 500, modelling `cleaned.slice(i, i + 500)` for
`i = 0, 500, 1000, ...`. -/
def chunks500 {α : Type} (l : List α) : List (List α) :=
  chunksGo l.length l

/-- Index of the first batch (counting from `i`, for `n` remaining batches)
whose insert the remote store fails. -/
def firstIdx (oracle : ℕ → Option String) (i : ℕ) : ℕ → Option ℕ
  | 0 => none
  | n + 1 => if (oracle i).isSome then some i else firstIdx oracle (i + 1) n

/-- The sequential batch-submission loop (App.tsx:889-895): submit each
batch in order; on the first error stop (the `break`), reporting it. `oracle`
gives the remote store's error (if any) for the batch at each index.
Returns the batches actually submitted and the reported error. -/
def submitChunks {α : Type} (oracle : ℕ → Option String) :
    List (List α) → ℕ → List (List α) × Option String
  | [], _ => ([], none)
  | b :: bs, i =>
    match oracle i with
    | some e => ([b], some e)
    | none =>
      let r := submitChunks oracle bs (i + 1)
      (b :: r.1, r.2)

/-- Result of the import handler: the insert requests issued, the first
batch error (if any), whether the final full re-list (`await fetchAll()`)
ran, and the alerts shown. -/
structure ImportResult where
  batches : List (List CleanedRow)
  err : Option String
  refetched : Bool
  alerts : List String
deriving Repr, DecidableEq

/-- Model of the `onRows` import handler (App.tsx:877-897): sign-in gate,
per-row cleaning, chunked sequential submission, then an unconditional
`fetchAll`. -/
def onRows (session : Option String) (today : String)
    (oracle : ℕ → Option String) (rows : List RawRow) : ImportResult :=
  match session with
  | none => ⟨[], none, false, ["Please sign in first."]⟩
  | some uid =>
    let cleaned := rows.map (cleanImportRow uid today)
    let r := submitChunks oracle (chunks500 cleaned) 0
    ⟨r.1, r.2, true, match r.2 with | some m => [m] | none => []⟩

/-- Outcome of handing a CSV text to the import flow (App.tsx:171-175). -/
inductive ImportOutcome where
  | rejected (msg : String)
  | submitted (res : ImportResult)
deriving Repr, DecidableEq

/-- Insert requests issued by an import outcome (a rejected import issues
none). -/
def insertsOf : ImportOutcome → List (List CleanedRow)
  | .rejected _ => []
  | .submitted r => r.batches

/-- Model of the CSV file-load callback (App.tsx:171-175):
`if (!data.length) alert("No rows found. ...") else onRows(data)`. -/
def importCSV (session : Option String) (today : String)
    (oracle : ℕ → Option String) (text : String) : ImportOutcome :=
  match parseCSV text with
  | [] => .rejected "No rows found. Ensure your CSV has a header row."
  | r :: rs => .submitted (onRows session today oracle (r :: rs))

-- ---------- Concrete records for witnesses and counterexamples ----------

/-- A stored workout row (server id "a", date 2024-05-01). -/
def wA : Workout :=
  ⟨some "a", some "u", "2024-05-01", some 1000, some 20, "Free", some (some 5), some ""⟩

/-- A workout draft (no id yet, date 2024-01-01 — older than `wA`). -/
def wOld : Workout :=
  ⟨none, none, "2024-01-01", some 800, some 15, "Back", none, some "easy"⟩

/-- A stored workout row whose date string contains letters (as a CSV
bulk load can produce). -/
def wMay : Workout :=
  ⟨some "m", some "u", "2024-May-01", some 1500, some 25, "Free", some (some 5), some "tech work"⟩

/-- A stored competition row (server id "b"). -/
def cB : Competition :=
  ⟨some "b", some "u", "2024-02-01", "Nationals", some 50, "Free", some 28, some "", some ""⟩

/-- A competition draft (no id yet). -/
def cDraft : Competition :=
  ⟨none, none, "2024-03-01", "Regionals", some 100, "Fly", some 70, none, none⟩

/-- Two stored competition rows sharing the key (u, Free, 50); times in
hundredths of a second (28.10s and 27.95s of the spec's example, scaled to
stay integral). -/
def pbDemo : List CompRow :=
  [⟨"u", "2024-01-01", "Spring Meet", 50, "Free", 2810⟩,
   ⟨"u", "2024-02-01", "Summer Meet", 50, "Free", 2795⟩]

-- ---------- Helper lemmas: the lexicographic string order ----------

theorem lexLtB_irrefl (l : List Char) : lexLtB l l = false := by
  induction l with
  | nil => rfl
  | cons a t ih => simp [lexLtB, ih]

theorem lexLtB_trans {a b c : List Char} (h1 : lexLtB a b = true)
    (h2 : lexLtB b c = true) : lexLtB a c = true := by
  induction a generalizing b c with
  | nil =>
    cases c with
    | nil =>
      cases b with
      | nil => exact h2
      | cons y ys => simp [lexLtB] at h2
    | cons z zs => rfl
  | cons x xs ih =>
    cases b with
    | nil => simp [lexLtB] at h1
    | cons y ys =>
      cases c with
      | nil => simp [lexLtB] at h2
      | cons z zs =>
        simp only [lexLtB] at h1 h2 ⊢
        by_cases hxy : x = y <;> by_cases hyz : y = z
        · subst hxy; subst hyz
          simp only [if_pos rfl] at h1 h2 ⊢
          exact ih h1 h2
        · subst hxy
          simp only [if_pos rfl, if_neg hyz] at h1 h2 ⊢
          exact h2
        · subst hyz
          simp only [if_pos rfl, if_neg hxy] at h1 h2 ⊢
          exact h1
        · simp only [if_neg hxy, if_neg hyz] at h1 h2
          have hxz : x < z := lt_trans (of_decide_eq_true h1) (of_decide_eq_true h2)
          have hne : ¬(x = z) := ne_of_lt hxz
          simp [if_neg hne, hxz]

theorem lexLtB_conn {a b : List Char} (h1 : lexLtB a b = false)
    (h2 : lexLtB b a = false) : a = b := by
  induction a generalizing b with
  | nil =>
    cases b with
    | nil => rfl
    | cons y ys => simp [lexLtB] at h1
  | cons x xs ih =>
    cases b with
    | nil => simp [lexLtB] at h2
    | cons y ys =>
      simp only [lexLtB] at h1 h2
      by_cases hxy : x = y
      · subst hxy
        simp only [if_pos rfl] at h1 h2
        rw [ih h1 h2]
      · have hyx : ¬(y = x) := fun h => hxy h.symm
        simp only [if_neg hxy, if_neg hyx, decide_eq_false_iff_not] at h1 h2
        exact absurd (lt_of_le_of_ne (le_of_not_lt h2) hxy) h1

theorem strLt_asymm {a b : String} (h : strLt a b = true) : strLt b a = false := by
  cases hba : strLt b a with
  | false => rfl
  | true =>
    have := lexLtB_trans h hba
    rw [lexLtB_irrefl] at this
    exact absurd this (by simp)

theorem strLe_of_not_lt {a b : String} (h : strLt b a = false) : strLe a b := h

theorem strLe_refl (a : String) : strLe a a := lexLtB_irrefl _

theorem strLe_trans {a b c : String} (h1 : strLe a b) (h2 : strLe b c) :
    strLe a c := by
  unfold strLe strLt at h1 h2 ⊢
  cases hca : lexLtB c.toList a.toList with
  | false => rfl
  | true =>
    cases hbc : lexLtB b.toList c.toList with
    | true => rw [lexLtB_trans hbc hca] at h1; exact h1
    | false =>
      have hbceq := lexLtB_conn hbc h2
      rw [hbceq] at h1
      rw [hca] at h1
      exact h1

theorem dateDesc_trans {a b c : Workout} (h1 : dateDesc a b) (h2 : dateDesc b c) :
    dateDesc a c :=
  strLe_trans h2 h1

-- ---------- Helper lemmas: optimistic apply / rollback on lists ----------

theorem update_map_noid {α : Type} (idOf : α → Option String) (eid : String)
    (upd : α) (rows : List α) (h : ∀ x ∈ rows, ¬(idOf x = some eid)) :
    rows.map (fun x => if idOf x = some eid then upd else x) = rows := by
  induction rows with
  | nil => rfl
  | cons a t ih =>
    rw [List.map_cons, if_neg (h a (List.mem_cons_self a t)),
      ih (fun x hx => h x (List.mem_cons_of_mem a hx))]

theorem update_rollback_eq {α : Type} (idOf : α → Option String) (eid : String)
    (upd p : α) (hupd : idOf upd = some eid) (rows : List α)
    (hnd : (rows.map idOf).Nodup)
    (hfind : rows.find? (fun x => idOf x = some eid) = some p) :
    (rows.map (fun x => if idOf x = some eid then upd else x)).map
      (fun x => if idOf x = some eid then p else x) = rows := by
  induction rows with
  | nil => simp at hfind
  | cons a t ih =>
    rw [List.map_cons, List.nodup_cons] at hnd
    obtain ⟨hna, hnt⟩ := hnd
    by_cases ha : idOf a = some eid
    · have hpa : p = a := by
        rw [List.find?_cons_of_pos _ (by simpa using ha)] at hfind
        exact (Option.some_inj.mp hfind).symm
      subst hpa
      have htids : ∀ x ∈ t, ¬(idOf x = some eid) := by
        intro x hx hcontra
        apply hna
        rw [ha, ← hcontra]
        exact List.mem_map_of_mem idOf hx
      rw [List.map_cons, if_pos ha, update_map_noid idOf eid upd t htids,
        List.map_cons, if_pos hupd, update_map_noid idOf eid p t htids]
    · have hfind' : t.find? (fun x => idOf x = some eid) = some p := by
        rw [List.find?_cons_of_neg _ (by simpa using ha)] at hfind
        exact hfind
      rw [List.map_cons, if_neg ha, List.map_cons, if_neg ha, ih hnt hfind']

theorem create_rollback_eq {α : Type} (idOf : α → Option String) (tid : String)
    (opt : α) (hopt : idOf opt = some tid) (rows : List α)
    (h : ∀ x ∈ rows, ¬(idOf x = some tid)) :
    (opt :: rows).filter (fun x => ¬(idOf x = some tid)) = rows := by
  have hfalse : (decide ¬(idOf opt = some tid)) = false := by simp [hopt]
  rw [List.filter_cons, hfalse, if_neg (by simp : ¬(false = true))]
  rw [List.filter_eq_self]
  intro x hx
  simpa using h x hx

-- ---------- C2 ----------

/-- C2: every failed mutation leaves the in-memory collection exactly as it
was before the optimistic apply — a failed update restores the captured
pre-mutation record in place, a failed create removes the temporary entry,
and a failed delete restores the removed records; on both collections.
(Ids are pairwise distinct in any reachable collection, and the random
temporary id is fresh — stated as hypotheses.) -/
theorem C2_rollback (uid eid ceid tempId ctempId m : String)
    (draft conf : Workout) (cdraft cconf : Competition)
    (rows : List Workout) (comps : List Competition)
    (hW : (rows.map Workout.id).Nodup)
    (hWt : ∀ x ∈ rows, ¬(x.id = some tempId))
    (hC : (comps.map Competition.id).Nodup)
    (hCt : ∀ x ∈ comps, ¬(x.id = some ctempId)) :
    (saveWorkout (some uid) (some eid) draft tempId (some m) conf rows).rows = rows
    ∧ (saveWorkout (some uid) none draft tempId (some m) conf rows).rows = rows
    ∧ (deleteWorkout (some uid) true eid (some m) rows).rows = rows
    ∧ (saveCompetition (some uid) (some ceid) cdraft ctempId (some m) cconf comps).rows = comps
    ∧ (saveCompetition (some uid) none cdraft ctempId (some m) cconf comps).rows = comps
    ∧ (deleteCompetition (some uid) true ceid (some m) comps).rows = comps := by
  refine ⟨?_, ?_, rfl, ?_, ?_, rfl⟩
  · simp only [saveWorkout]
    cases hfind : rows.find? (fun x => x.id = some eid) with
    | none =>
      have h := List.find?_eq_none.mp hfind
      exact update_map_noid Workout.id eid _ rows (fun x hx => by simpa using h x hx)
    | some p =>
      exact update_rollback_eq Workout.id eid _ p rfl rows hW hfind
  · simp only [saveWorkout]
    exact create_rollback_eq Workout.id tempId _ rfl rows hWt
  · simp only [saveCompetition]
    cases hfind : comps.find? (fun x => x.id = some ceid) with
    | none =>
      have h := List.find?_eq_none.mp hfind
      exact update_map_noid Competition.id ceid _ comps (fun x hx => by simpa using h x hx)
    | some p =>
      exact update_rollback_eq Competition.id ceid _ p rfl comps hC hfind
  · simp only [saveCompetition]
    exact create_rollback_eq Competition.id ctempId _ rfl comps hCt

/-- C2 witness: the rollback law at a concrete one-row state for each
collection. -/
theorem C2_rollback_witness :
    (saveWorkout (some "u") (some "a") wOld "t" (some "boom") wA [wA]).rows = [wA]
    ∧ (saveWorkout (some "u") none wOld "t" (some "boom") wA [wA]).rows = [wA]
    ∧ (deleteWorkout (some "u") true "a" (some "boom") [wA]).rows = [wA]
    ∧ (saveCompetition (some "u") (some "b") cDraft "t2" (some "boom") cB [cB]).rows = [cB]
    ∧ (saveCompetition (some "u") none cDraft "t2" (some "boom") cB [cB]).rows = [cB]
    ∧ (deleteCompetition (some "u") true "b" (some "boom") [cB]).rows = [cB] :=
  C2_rollback "u" "a" "b" "t" "t2" "boom" wOld wA cDraft cB [wA] [cB]
    (by decide) (by decide) (by decide) (by decide)

-- ---------- Helper lemmas: chunking and the submission loop ----------

theorem chunksGo_nil {α : Type} (fuel : ℕ) : chunksGo (α := α) fuel [] = [] := by
  cases fuel <;> rfl

theorem chunksGo_flatten {α : Type} :
    ∀ (fuel : ℕ) (l : List α), l.length ≤ fuel → (chunksGo fuel l).flatten = l := by
  intro fuel
  induction fuel with
  | zero =>
    intro l hl
    cases l with
    | nil => rfl
    | cons a t => simp at hl
  | succ n ih =>
    intro l hl
    cases l with
    | nil => rfl
    | cons a t =>
      have hdrop : ((a :: t).drop 500).length ≤ n := by
        simp only [List.length_drop, List.length_cons]
        simp only [List.length_cons] at hl
        omega
      rw [chunksGo, List.flatten_cons, ih _ hdrop, List.take_append_drop]

theorem chunks500_flatten {α : Type} (l : List α) : (chunks500 l).flatten = l :=
  chunksGo_flatten l.length l (le_refl _)

theorem chunksGo_length_le {α : Type} :
    ∀ (fuel : ℕ) (l : List α), ∀ b ∈ chunksGo fuel l, b.length ≤ 500 := by
  intro fuel
  induction fuel with
  | zero =>
    intro l b hb
    cases l <;> simp [chunksGo] at hb
  | succ n ih =>
    intro l b hb
    cases l with
    | nil => simp [chunksGo] at hb
    | cons a t =>
      rw [chunksGo] at hb
      rcases List.mem_cons.mp hb with rfl | hb'
      · rw [List.length_take]
        exact min_le_left _ _
      · exact ih _ b hb'

theorem chunks500_length_le {α : Type} (l : List α) :
    ∀ b ∈ chunks500 l, b.length ≤ 500 :=
  chunksGo_length_le l.length l

theorem chunks500_eq_nil {α : Type} (l : List α) : chunks500 l = [] ↔ l = [] := by
  cases l with
  | nil => simp [chunks500, chunksGo]
  | cons a t =>
    rw [chunks500, List.length_cons, chunksGo]
    simp

theorem chunksGo_dropLast {α : Type} :
    ∀ (fuel : ℕ) (l : List α), l.length ≤ fuel →
      ∀ b ∈ (chunksGo fuel l).dropLast, b.length = 500 := by
  intro fuel
  induction fuel with
  | zero =>
    intro l hl b hb
    cases l with
    | nil => simp [chunksGo] at hb
    | cons a t => simp at hl
  | succ n ih =>
    intro l hl b hb
    cases l with
    | nil => simp [chunksGo] at hb
    | cons a t =>
      rw [chunksGo] at hb
      cases hd : chunksGo n ((a :: t).drop 500) with
      | nil => rw [hd] at hb; simp at hb
      | cons c cs =>
        rw [hd, List.dropLast_cons₂] at hb
        rcases List.mem_cons.mp hb with rfl | hb'
        · have hne : (a :: t).drop 500 ≠ [] := by
            intro hnil
            rw [hnil, chunksGo_nil] at hd
            exact List.noConfusion hd
          have hlen : 500 < (a :: t).length := by
            by_contra hle
            exact hne (List.drop_eq_nil_of_le (le_of_not_lt hle))
          rw [List.length_take]
          omega
        · have hdrop : ((a :: t).drop 500).length ≤ n := by
            simp only [List.length_drop, List.length_cons]
            simp only [List.length_cons] at hl
            omega
          have := ih _ hdrop
          rw [hd] at this
          exact this b hb'

theorem chunks500_dropLast {α : Type} (l : List α) :
    ∀ b ∈ (chunks500 l).dropLast, b.length = 500 :=
  chunksGo_dropLast l.length l (le_refl _)

theorem submitChunks_eq {α : Type} (oracle : ℕ → Option String) :
    ∀ (bs : List (List α)) (i : ℕ),
      (firstIdx oracle i bs.length = none → submitChunks oracle bs i = (bs, none))
      ∧ (∀ k, firstIdx oracle i bs.length = some k →
          i ≤ k ∧ submitChunks oracle bs i = (bs.take (k - i + 1), oracle k))
  | [], i => by
    constructor
    · intro _; rfl
    · intro k hk
      simp [firstIdx] at hk
  | b :: bs, i => by
    simp only [List.length_cons, firstIdx]
    cases ho : oracle i with
    | some e =>
      simp only [Option.isSome_some, if_true]
      constructor
      · intro h; exact Option.noConfusion h
      · intro k hk
        obtain rfl : i = k := Option.some_inj.mp hk
        refine ⟨le_refl i, ?_⟩
        have : i - i + 1 = 1 := by omega
        rw [this]
        simp [submitChunks, ho, List.take_succ_cons]
    | none =>
      simp only [Option.isSome_none, Bool.false_eq_true, if_false]
      have IH := submitChunks_eq oracle bs (i + 1)
      constructor
      · intro h
        simp [submitChunks, ho, (IH.1) h]
      · intro k hk
        obtain ⟨hik, hsub⟩ := (IH.2) k hk
        refine ⟨by omega, ?_⟩
        have hidx : k - i + 1 = (k - (i + 1) + 1) + 1 := by omega
        rw [hidx, List.take_succ_cons]
        simp [submitChunks, ho, hsub]

-- ---------- C7 ----------

/-- C7: the bulk import submits the cleaned rows in consecutive batches of
exactly 500 (the last possibly smaller), sequentially in order; with no
batch failure it submits every batch and reports no error; on the first
failing batch it stops, having submitted exactly the batches up to and
including the failing one, and reports that failure; and in every case it
ends with a full re-list from the remote store. -/
theorem C7_bulk_import (uid today : String) (oracle : ℕ → Option String)
    (rows : List RawRow) :
    (onRows (some uid) today oracle rows).refetched = true
    ∧ (chunks500 (rows.map (cleanImportRow uid today))).flatten
        = rows.map (cleanImportRow uid today)
    ∧ (∀ b ∈ chunks500 (rows.map (cleanImportRow uid today)), b.length ≤ 500)
    ∧ (∀ b ∈ (chunks500 (rows.map (cleanImportRow uid today))).dropLast,
        b.length = 500)
    ∧ (firstIdx oracle 0 (chunks500 (rows.map (cleanImportRow uid today))).length = none →
        (onRows (some uid) today oracle rows).batches
            = chunks500 (rows.map (cleanImportRow uid today))
          ∧ (onRows (some uid) today oracle rows).err = none)
    ∧ (∀ k,
        firstIdx oracle 0 (chunks500 (rows.map (cleanImportRow uid today))).length = some k →
          (onRows (some uid) today oracle rows).batches
              = (chunks500 (rows.map (cleanImportRow uid today))).take (k + 1)
            ∧ (onRows (some uid) today oracle rows).err = oracle k) := by
  refine ⟨rfl, chunks500_flatten _, chunks500_length_le _, chunks500_dropLast _, ?_, ?_⟩
  · intro h
    have := (submitChunks_eq oracle (chunks500 (rows.map (cleanImportRow uid today))) 0).1 h
    constructor <;> simp [onRows, this]
  · intro k hk
    obtain ⟨-, hsub⟩ :=
      (submitChunks_eq oracle (chunks500 (rows.map (cleanImportRow uid today))) 0).2 k hk
    have hk0 : k - 0 + 1 = k + 1 := by omega
    rw [hk0] at hsub
    constructor <;> simp [onRows, hsub]

/-- C7 witness: a one-row import with a healthy remote store submits its
single batch. -/
theorem C7_bulk_import_witness :
    (firstIdx (fun _ => none) 0
        (chunks500 ([(⟨some "2024-05-01", some "1500", some "25", "Free", some "6", "steady"⟩ : RawRow)].map
          (cleanImportRow "u" "2024-01-01"))).length = none)
    ∧ (onRows (some "u") "2024-01-01" (fun _ => none)
        [(⟨some "2024-05-01", some "1500", some "25", "Free", some "6", "steady"⟩ : RawRow)]).batches
      = chunks500 ([(⟨some "2024-05-01", some "1500", some "25", "Free", some "6", "steady"⟩ : RawRow)].map
          (cleanImportRow "u" "2024-01-01")) :=
  ⟨rfl,
    ((C7_bulk_import "u" "2024-01-01" (fun _ => none)
        [(⟨some "2024-05-01", some "1500", some "25", "Free", some "6", "steady"⟩ : RawRow)]).2.2.2.2.1
      rfl).1⟩

-- ---------- C8 ----------

theorem parseCSV_eq_nil_iff (text : String) :
    parseCSV text = [] ↔ (jsLines text).length ≤ 1 := by
  unfold parseCSV
  cases hl : jsLines text with
  | nil => simp
  | cons h rest =>
    simp only [List.length_cons, List.map_eq_nil_iff]
    constructor
    · rintro rfl; simp
    · intro hlen
      have : rest.length = 0 := by omega
      exact List.length_eq_zero.mp this

/-- C8: the import pipeline is rejected with the "no rows found" report iff
parsing yields zero data rows (the non-empty line count is at most the
header line), in which case zero insert requests are issued; any text with
at least one data row proceeds to the submission handler. -/
theorem C8_reject_no_rows (session : Option String) (today : String)
    (oracle : ℕ → Option String) (text : String) :
    (importCSV session today oracle text
        = .rejected "No rows found. Ensure your CSV has a header row."
      ↔ parseCSV text = [])
    ∧ (parseCSV text = [] ↔ (jsLines text).length ≤ 1)
    ∧ (parseCSV text = [] → insertsOf (importCSV session today oracle text) = [])
    ∧ (∀ r rs, parseCSV text = r :: rs →
        importCSV session today oracle text
          = .submitted (onRows session today oracle (r :: rs))) := by
  refine ⟨?_, parseCSV_eq_nil_iff text, ?_, ?_⟩
  · cases hp : parseCSV text with
    | nil => simp [importCSV, hp]
    | cons r rs => simp [importCSV, hp]
  · intro hp
    simp [importCSV, hp, insertsOf]
  · intro r rs hp
    simp [importCSV, hp]

/-- C8 witness: a header-only file is rejected with "no rows found" and
issues zero inserts. -/
theorem C8_reject_no_rows_witness :
    (parseCSV "date,distance_m,duration_min,stroke,rpe,notes\n" = [])
    ∧ insertsOf (importCSV (some "u") "2024-01-01" (fun _ => none)
        "date,distance_m,duration_min,stroke,rpe,notes\n") = [] :=
  ⟨rfl,
    (C8_reject_no_rows (some "u") "2024-01-01" (fun _ => none)
        "date,distance_m,duration_min,stroke,rpe,notes\n").2.2.1 rfl⟩

-- ---------- C10 ----------

/-- C10: a failed personal-bests refresh leaves the in-memory PB collection
exactly unchanged; it is replaced (by `data ?? []`) only when the fetch
succeeds. -/
theorem C10_pb_refresh_failure (m : String) (data : Option (List CompRow))
    (pbs : List CompRow) :
    refreshPBs (some m) data pbs = pbs ∧ refreshPBs none data pbs = data.getD [] :=
  ⟨rfl, rfl⟩

-- ---------- C3 ----------

/-- C3 counterexample: the claim says every mutating operation, deletes
included, is rejected while signed out with collections unchanged and no
remote request. But `deleteWorkout` performs no sign-in check: invoked with
no session it still removes the record optimistically and issues the remote
delete. -/
theorem C3_counterexample :
    (deleteWorkout none true "a" none
        [(⟨some "a", some "u", "2024-05-01", some 1000, some 20, "Free", none, some ""⟩ : Workout)]).rows = []
    ∧ (deleteWorkout none true "a" none
        [(⟨some "a", some "u", "2024-05-01", some 1000, some 20, "Free", none, some ""⟩ : Workout)]).req = some "a"
    ∧ ([] : List Workout) ≠
        [(⟨some "a", some "u", "2024-05-01", some 1000, some 20, "Free", none, some ""⟩ : Workout)] := by
  refine ⟨rfl, rfl, ?_⟩
  decide

/-- C3 amended: the create and update handlers (`saveWorkout`,
`saveCompetition`) reject a signed-out mutation before any optimistic apply
and any network call, leaving the collection unchanged and surfacing
"Please sign in first."; the delete handlers perform no sign-in check at
all — their behaviour is independent of the session. -/
theorem C3_amended (eid ceid : Option String) (draft : Workout)
    (cdraft : Competition) (tempId ctempId : String) (rErr cErr : Option String)
    (conf : Workout) (cconf : Competition) (rows : List Workout)
    (comps : List Competition) :
    saveWorkout none eid draft tempId rErr conf rows
      = ⟨rows, rows, none, ["Please sign in first."]⟩
    ∧ saveCompetition none ceid cdraft ctempId cErr cconf comps
      = ⟨comps, comps, none, ["Please sign in first."], false⟩
    ∧ (∀ s1 s2 cOk id dErr,
        deleteWorkout s1 cOk id dErr rows = deleteWorkout s2 cOk id dErr rows)
    ∧ (∀ s1 s2 cOk id dErr,
        deleteCompetition s1 cOk id dErr comps = deleteCompetition s2 cOk id dErr comps) :=
  ⟨rfl, rfl, fun _ _ _ _ _ => rfl, fun _ _ _ _ _ => rfl⟩

-- ---------- C4 ----------

/-- C4 counterexample: the claim's table says Result distanceMeters is
"clamped to ≥ 25 with default 50 if non-numeric". On the numeric draft
value 0 the clamp would give 25, but the code's `Number(v) || 50` treats 0
as falsy, so `saveCompetition` normalizes it to 50. -/
theorem C4_counterexample :
    (competitionClean
        (⟨none, none, "2024-01-01", "Meet", some 0, "Free", some 30, none, none⟩ : Competition)).distance_m
      = some 50
    ∧ (50 : ℚ) ≠ max 25 0 := by
  refine ⟨rfl, ?_⟩
  decide

/-- C4 amended: normalization before any network call satisfies the table
with zero treated like non-numeric wherever the code uses `|| default`:
Session distanceMeters and durationMinutes clamp to ≥ 0 (default 0 if
non-numeric); perceivedEffort clamps into [1,10] when present, numeric and
nonzero, and is otherwise omitted; Result distanceMeters defaults to 50
when non-numeric or zero, else clamps to ≥ 25; Result timeSeconds defaults
to 40 when non-numeric or zero, else clamps to ≥ 1. -/
theorem C4_amended (d : Workout) (c : Competition) :
    workoutClean d = sessionNormTable d ∧ competitionClean c = resultNormTable c := by
  constructor
  · obtain ⟨i, u, dt, dm, du, st, rp, no⟩ := d
    simp only [workoutClean, sessionNormTable, Workout.mk.injEq, true_and, and_true]
    constructor
    · cases dm with
      | none => rfl
      | some x =>
        by_cases hx : x = 0 <;> simp [jsOrNum, hx]
    · cases du with
      | none => rfl
      | some x =>
        by_cases hx : x = 0 <;> simp [jsOrNum, hx]
  · obtain ⟨i, u, dt, mt, dm, st, ts, lo, no⟩ := c
    simp only [competitionClean, resultNormTable, Competition.mk.injEq, true_and, and_true]
    constructor
    · cases dm with
      | none => rfl
      | some x =>
        by_cases hx : x = 0 <;> simp [jsOrNum, hx] <;> norm_num
    · cases ts with
      | none => rfl
      | some x =>
        by_cases hx : x = 0 <;> simp [jsOrNum, hx] <;> norm_num

-- ---------- Helper lemmas: date-descending insertion sort ----------

theorem mem_insertDesc {w x : Workout} {l : List Workout} :
    x ∈ insertDesc w l ↔ x = w ∨ x ∈ l := by
  induction l with
  | nil => simp [insertDesc]
  | cons a t ih =>
    simp only [insertDesc]
    split
    · simp only [List.mem_cons, ih]
      tauto
    · simp only [List.mem_cons]
      try tauto

theorem sorted_insertDesc {w : Workout} {l : List Workout}
    (h : List.Sorted dateDesc l) : List.Sorted dateDesc (insertDesc w l) := by
  induction l with
  | nil => simp [insertDesc]
  | cons a t ih =>
    rw [List.sorted_cons] at h
    obtain ⟨ha, ht⟩ := h
    simp only [insertDesc]
    split
    case isTrue hlt =>
      rw [List.sorted_cons]
      refine ⟨?_, ih ht⟩
      intro y hy
      rcases mem_insertDesc.mp hy with rfl | hyt
      · exact strLt_asymm hlt
      · exact ha y hyt
    case isFalse hge =>
      rw [List.sorted_cons]
      have hwa : dateDesc w a := Bool.eq_false_iff.mpr hge
      constructor
      · intro y hy
        rcases List.mem_cons.mp hy with rfl | hyt
        · exact hwa
        · exact dateDesc_trans hwa (ha y hyt)
      · rw [List.sorted_cons]
        exact ⟨ha, ht⟩

theorem sorted_sortByDateDesc (l : List Workout) :
    List.Sorted dateDesc (sortByDateDesc l) := by
  induction l with
  | nil => simp [sortByDateDesc]
  | cons a t ih => exact sorted_insertDesc ih

-- ---------- C5 ----------

/-- C5 counterexample: the claim says every reachable in-memory state,
including states with pending optimistic changes, is sorted by date
descending. But the create path prepends the optimistic entry to the front
regardless of its date: creating a draft dated 2024-01-01 on top of a row
dated 2024-05-01 yields an unsorted pending state. -/
theorem C5_counterexample :
    ¬ List.Sorted dateDesc
      ((saveWorkout (some "u") none wOld "tmp" none wA [wA]).rowsOpt) := by
  decide

/-- C5 amended: the in-memory sequence is sorted by date descending
whenever it was last set by a full fetch (the remote store honours the
requested `order("date", descending)`); optimistic creates prepend to the
front regardless of date, so pending states need not be sorted. -/
theorem C5_fetch_sorted (table : List Workout) :
    List.Sorted dateDesc (fetchWorkouts table) :=
  List.Pairwise.sublist (List.take_sublist _ _) (sorted_sortByDateDesc table)

-- ---------- C6 ----------

/-- C6 counterexample: the claim says the filter matches each of the five
fields case-insensitively. But only stroke and notes are lower-cased before
matching: a record whose date is "2024-May-01" is not returned for the
query "MAY", though its date case-insensitively contains it (the
claim-faithful `viewClaimC6` returns it). -/
theorem C6_counterexample :
    filtered [wMay] "MAY" 0 = [] ∧ viewClaimC6 [wMay] "MAY" 0 = [wMay] := by
  constructor <;> decide

/-- C6 amended: the view first trims and lower-cases the query; a record
matches when its raw date, distance or duration string contains the
processed query, or its lower-cased stroke or notes contains it; a query
that is empty after trimming applies no filtering; the result is the slice
[page*50, page*50+50) of the matches in their original order, and an
out-of-range page yields the empty sequence. -/
theorem C6_view (rows : List Workout) (query : String) (page : ℕ) :
    filtered rows query page = ((matchedRows rows query).drop (page * 50)).take 50
    ∧ (filtered rows query page).Sublist rows
    ∧ (∀ r ∈ filtered rows query page,
        ¬(strLower (jsTrim query) = "") →
          matchesQuery (strLower (jsTrim query)) r = true)
    ∧ ((matchedRows rows query).length ≤ page * 50 → filtered rows query page = []) := by
  have hsub : (matchedRows rows query).Sublist rows := by
    by_cases hq : strLower (jsTrim query) = ""
    · simp [matchedRows, hq]
    · simp only [matchedRows, if_neg hq]
      exact List.filter_sublist rows
  refine ⟨rfl, ?_, ?_, ?_⟩
  · exact ((List.take_sublist _ _).trans (List.drop_sublist _ _)).trans hsub
  · intro r hr hq
    have hrm : r ∈ matchedRows rows query :=
      ((List.take_sublist _ _).trans (List.drop_sublist _ _)).mem hr
    simp only [matchedRows, if_neg hq] at hrm
    exact (List.mem_filter.mp hrm).2
  · intro hlen
    unfold filtered
    rw [List.drop_eq_nil_of_le hlen, List.take_nil]

/-- C6 witness: an out-of-range page yields the empty sequence. -/
theorem C6_view_witness :
    (matchedRows [wMay] "fly").length ≤ 1 * 50 ∧ filtered [wMay] "fly" 1 = [] :=
  ⟨by decide, (C6_view [wMay] "fly" 1).2.2.2 (by decide)⟩

-- ---------- C9 ----------

/-- C9: on the create path the optimistic entry — the normalized draft with
the temporary id — is prepended to the front of the in-memory collection
immediately, and the payload submitted to the remote store is the
normalized draft without the temporary id (its id field stays absent). -/
theorem C9_create_roundtrip (uid : String) (draft conf : Workout)
    (tempId : String) (rErr : Option String) (rows : List Workout)
    (hid : draft.id = none) :
    (saveWorkout (some uid) none draft tempId rErr conf rows).rowsOpt
      = { workoutClean draft with id := some tempId } :: rows
    ∧ (saveWorkout (some uid) none draft tempId rErr conf rows).req
      = some (.insert { workoutClean draft with user_id := some uid })
    ∧ ({ workoutClean draft with user_id := some uid } : Workout).id = none := by
  refine ⟨?_, ?_, ?_⟩ <;> cases rErr <;>
    simp [saveWorkout, workoutClean, hid]

/-- C9 witness: the round-trip property at a concrete draft. -/
theorem C9_create_roundtrip_witness :
    ((⟨none, none, "2024-03-03", some 1500, some 25, "Free", some (some 6), some "steady"⟩ : Workout).id = none)
    ∧ (saveWorkout (some "u") none
        (⟨none, none, "2024-03-03", some 1500, some 25, "Free", some (some 6), some "steady"⟩ : Workout)
        "tmp" none
        (⟨some "srv", some "u", "2024-03-03", some 1500, some 25, "Free", some (some 6), some "steady"⟩ : Workout)
        []).rowsOpt
      = [{ workoutClean (⟨none, none, "2024-03-03", some 1500, some 25, "Free", some (some 6), some "steady"⟩ : Workout) with id := some "tmp" }] :=
  ⟨rfl,
    (C9_create_roundtrip "u"
      (⟨none, none, "2024-03-03", some 1500, some 25, "Free", some (some 6), some "steady"⟩ : Workout)
      (⟨some "srv", some "u", "2024-03-03", some 1500, some 25, "Free", some (some 6), some "steady"⟩ : Workout)
      "tmp" none [] rfl).1⟩

-- ---------- Helper lemmas: the personal_bests pick ----------

theorem pbLe_refl (a : CompRow) : pbLe a a :=
  Or.inr ⟨rfl, strLe_refl _⟩

theorem pbLe_trans {a b c : CompRow} (h1 : pbLe a b) (h2 : pbLe b c) : pbLe a c := by
  rcases h1 with h1 | ⟨he1, hd1⟩
  · rcases h2 with h2 | ⟨he2, hd2⟩
    · exact Or.inl (lt_trans h1 h2)
    · exact Or.inl (he2 ▸ h1)
  · rcases h2 with h2 | ⟨he2, hd2⟩
    · exact Or.inl (he1 ▸ h2)
    · exact Or.inr ⟨he1.trans he2, strLe_trans hd1 hd2⟩

theorem pbLe_of_pbBefore {b a : CompRow} (h : pbBefore b a = true) : pbLe b a := by
  unfold pbBefore at h
  rw [Bool.or_eq_true, Bool.and_eq_true] at h
  rcases h with h | ⟨he, hd⟩
  · exact Or.inl (of_decide_eq_true h)
  · exact Or.inr ⟨of_decide_eq_true he, strLt_asymm hd⟩

theorem pbLe_of_not_pbBefore {b a : CompRow} (h : pbBefore b a = false) : pbLe a b := by
  unfold pbBefore at h
  rw [Bool.or_eq_false_iff, Bool.and_eq_false_iff] at h
  obtain ⟨h1, h2⟩ := h
  have hnlt : ¬(b.time_sec < a.time_sec) := of_decide_eq_false h1
  rcases eq_or_lt_of_le (le_of_not_lt hnlt) with he | hl
  · refine Or.inr ⟨he, ?_⟩
    rcases h2 with h2 | h2
    · exact absurd (decide_eq_true he.symm) (by simp [h2])
    · exact h2
  · exact Or.inl hl

theorem pbPick_cons (c y : CompRow) (t : List CompRow) :
    pbPick c (y :: t) = pbPick (if pbBefore y c then y else c) t := rfl

theorem pbPick_mem : ∀ (l : List CompRow) (c : CompRow), pbPick c l ∈ c :: l := by
  intro l
  induction l with
  | nil => intro c; simp [pbPick]
  | cons y t ih =>
    intro c
    rw [pbPick_cons]
    rcases List.mem_cons.mp (ih (if pbBefore y c then y else c)) with heq | hmem
    · rw [heq]
      split
      · exact List.mem_cons_of_mem c (List.mem_cons_self y t)
      · exact List.mem_cons_self c _
    · exact List.mem_cons_of_mem c (List.mem_cons_of_mem y hmem)

theorem pbPick_le : ∀ (l : List CompRow) (c : CompRow), ∀ x ∈ c :: l, pbLe (pbPick c l) x := by
  intro l
  induction l with
  | nil =>
    intro c x hx
    rcases List.mem_cons.mp hx with rfl | h
    · exact pbLe_refl _
    · simp at h
  | cons y t ih =>
    intro c x hx
    rw [pbPick_cons]
    have hle_c : pbLe (if pbBefore y c then y else c) c := by
      split
      case isTrue h => exact pbLe_of_pbBefore h
      case isFalse h => exact pbLe_refl c
    have hle_y : pbLe (if pbBefore y c then y else c) y := by
      split
      case isTrue h => exact pbLe_refl y
      case isFalse h => exact pbLe_of_not_pbBefore (Bool.eq_false_iff.mpr h)
    have hpc : pbLe (pbPick (if pbBefore y c then y else c) t)
        (if pbBefore y c then y else c) :=
      ih _ _ (List.mem_cons_self _ _)
    rcases List.mem_cons.mp hx with rfl | hx'
    · exact pbLe_trans hpc hle_c
    rcases List.mem_cons.mp hx' with rfl | hx''
    · exact pbLe_trans hpc hle_y
    · exact ih _ x (List.mem_cons_of_mem _ hx'')

theorem personal_bests_keys (comps : List CompRow) :
    (personal_bests comps).map pbKey = (comps.map pbKey).dedup := by
  unfold personal_bests
  suffices h : ∀ ks : List (String × String × Int),
      (∀ k ∈ ks, k ∈ comps.map pbKey) →
      (ks.filterMap (fun k =>
        match comps.filter (fun c => pbKey c = k) with
        | [] => none
        | c :: rest => some (pbPick c rest))).map pbKey = ks by
    exact h _ (fun k hk => List.mem_dedup.mp hk)
  intro ks
  induction ks with
  | nil => intro _; rfl
  | cons k ks ih =>
    intro hks
    have hkmem : k ∈ comps.map pbKey := hks k (List.mem_cons_self _ _)
    obtain ⟨c0, hc0, hkey⟩ := List.mem_map.mp hkmem
    have hfil : c0 ∈ comps.filter (fun c => pbKey c = k) :=
      List.mem_filter.mpr ⟨hc0, by simp [hkey]⟩
    cases hmatch : comps.filter (fun c => pbKey c = k) with
    | nil => rw [hmatch] at hfil; simp at hfil
    | cons c rest =>
      rw [List.filterMap_cons]
      simp only [hmatch]
      have hpmem : pbPick c rest ∈ comps.filter (fun x => pbKey x = k) := by
        rw [hmatch]; exact pbPick_mem rest c
      have hpkey : pbKey (pbPick c rest) = k := by
        have := (List.mem_filter.mp hpmem).2
        simpa using this
      rw [List.map_cons, hpkey, ih (fun k' hk' => hks k' (List.mem_cons_of_mem _ hk'))]

theorem countP_eq_one_of_nodup_mem {β : Type} [DecidableEq β] {l : List β} {k : β}
    (hnd : l.Nodup) (hk : k ∈ l) : l.countP (fun x => x = k) = 1 := by
  induction l with
  | nil => simp at hk
  | cons a t ih =>
    rw [List.nodup_cons] at hnd
    obtain ⟨hna, hnt⟩ := hnd
    rw [List.countP_cons]
    rcases List.mem_cons.mp hk with rfl | hkt
    · have h0 : t.countP (fun x => x = k) = 0 := by
        rw [List.countP_eq_zero]
        intro x hx
        simp only [decide_eq_true_eq]
        exact fun heq => hna (heq ▸ hx)
      simp [h0]
    · have hpa : ¬(a = k) := fun heq => hna (heq ▸ hkt)
      simp [hpa, ih hnt hkt]

theorem personal_bests_spec {comps : List CompRow} {pb : CompRow}
    (hpb : pb ∈ personal_bests comps) :
    pb ∈ comps ∧ ∀ c ∈ comps, pbKey c = pbKey pb → pbLe pb c := by
  unfold personal_bests at hpb
  obtain ⟨k, hkdedup, hfk⟩ := List.mem_filterMap.mp hpb
  cases hmatch : comps.filter (fun c => pbKey c = k) with
  | nil => rw [hmatch] at hfk; exact Option.noConfusion hfk
  | cons c rest =>
    rw [hmatch] at hfk
    have hpb_eq : pbPick c rest = pb := Option.some_inj.mp hfk
    have hpmem : pb ∈ comps.filter (fun x => pbKey x = k) := by
      rw [hmatch, ← hpb_eq]; exact pbPick_mem rest c
    have hmemc : pb ∈ comps := (List.mem_filter.mp hpmem).1
    have hkeyk : pbKey pb = k := by
      have := (List.mem_filter.mp hpmem).2
      simpa using this
    refine ⟨hmemc, ?_⟩
    intro c' hc' hkey'
    have hc'fil : c' ∈ comps.filter (fun x => pbKey x = k) :=
      List.mem_filter.mpr ⟨hc', by simp [hkey', hkeyk]⟩
    rw [hmatch] at hc'fil
    rw [← hpb_eq]
    exact pbPick_le rest c c' hc'fil

-- ---------- C1 ----------

/-- C1: for every key (user, stroke, distance) present in the competitions
table, exactly one personal_bests row carries that key; that row is one of
the competition rows of the group, its time_sec is the minimum time_sec of
the group, and among the group rows achieving that minimum its date is the
earliest. -/
theorem C1_pb_invariant (comps : List CompRow) (k : String × String × Int)
    (hk : k ∈ comps.map pbKey) :
    (personal_bests comps).countP (fun pb => pbKey pb = k) = 1
    ∧ ∀ pb ∈ personal_bests comps, pbKey pb = k →
        pb ∈ comps
        ∧ (∀ c ∈ comps, pbKey c = k → pb.time_sec ≤ c.time_sec)
        ∧ (∀ c ∈ comps, pbKey c = k → c.time_sec = pb.time_sec →
            strLe pb.date c.date) := by
  constructor
  · have hrw : (fun pb => decide (pbKey pb = k)) = ((fun x => decide (x = k)) ∘ pbKey) := rfl
    rw [hrw, ← List.countP_map, personal_bests_keys]
    exact countP_eq_one_of_nodup_mem (List.nodup_dedup _) (List.mem_dedup.mpr hk)
  · intro pb hpb hkey
    obtain ⟨hmem, hmin⟩ := personal_bests_spec hpb
    refine ⟨hmem, ?_, ?_⟩
    · intro c hc hck
      rcases hmin c hc (by rw [hck, hkey]) with hlt | ⟨heq, _⟩
      · exact le_of_lt hlt
      · exact le_of_eq heq
    · intro c hc hck htime
      rcases hmin c hc (by rw [hck, hkey]) with hlt | ⟨_, hdate⟩
      · exact absurd htime (ne_of_gt hlt)
      · exact hdate

/-- C1 witness: on the spec's two-row example the key (u, Free, 50) has
exactly one personal-best row. -/
theorem C1_pb_invariant_witness :
    (("u", "Free", (50 : Int)) ∈ pbDemo.map pbKey)
    ∧ (personal_bests pbDemo).countP
        (fun pb => pbKey pb = ("u", "Free", (50 : Int))) = 1 :=
  ⟨by decide, (C1_pb_invariant pbDemo ("u", "Free", (50 : Int)) (by decide)).1⟩

end SwimmerTracker
